import Mathlib

/-!
Verification of the tree-menu rendering core (`tree_menu/templatetags/tree_menu_tags.py`)
against its natural-language specification.

Python strings are embedded as lists of characters (`Str`); Python's
`str.startswith` / `str.endswith` become `List.isPrefixOf` / `List.isSuffixOf`.
Database rows fetched by `MenuItem.objects.filter(menu__name=...).values(...)`
are embedded as records (`RawItem`); `None` for `parent_id` is `Option.none`.
Python truthiness of `parent_id` / `active_id` (falsy for both `None` and `0`)
is embedded explicitly by `truthyOpt` / the `= 0` tests.
The `while cur:` ancestor walk of `draw_menu` is embedded with explicit fuel
`items.length + 1`: if the walk runs that many successful iterations, some id
repeated (there are at most `items.length` keys in `by_id`), and since the next
id is a function of the current one, the Python loop revisits the same state and
diverges.  Hence the embedded walk returns `none` exactly when the Python code
raises `KeyError` (a parent id outside the fetched set) or loops forever.
-/

/-- Character-list embedding of Python strings. -/
abbrev Str := List Char

/-- Python `s.startswith(pre)`. -/
def strStartsWith (s pre : Str) : Bool := pre.isPrefixOf s

/-- Python `s.endswith(suf)`. -/
def strEndsWith (s suf : Str) : Bool := suf.isSuffixOf s

/-- The string "/". -/
def slash : Str := ['/']

/-- The string "#", the sentinel degraded link. -/
def hashMark : Str := ['#']

/-- The scheme marker "http://". -/
def httpScheme : Str := ['h', 't', 't', 'p', ':', '/', '/']

/-- The scheme marker "https://". -/
def httpsScheme : Str := ['h', 't', 't', 'p', 's', ':', '/', '/']

/-- Python `path.startswith(("http://", "https://", "#"))`: true when the string
is left untouched by normalization (external link or fragment). -/
def isExternalOrFragment (path : Str) : Bool :=
  strStartsWith path httpScheme || strStartsWith path httpsScheme ||
    strStartsWith path hashMark

/-- Embedding of `_normalize_path` (tree_menu_tags.py, lines 22-36). -/
def normalizePath (path : Str) : Str :=
  if path = [] then slash
  else if isExternalOrFragment path then path
  else
    let path1 := if strStartsWith path slash then path else slash ++ path
    if path1 ≠ slash ∧ strEndsWith path1 slash = false then path1 ++ slash
    else path1

/-- Embedding of `_resolve_url` (tree_menu_tags.py, lines 38-45).  The route
resolver (Django's `reverse`) is a parameter: `some u` is a successful
resolution, `none` is `NoReverseMatch`.  Empty strings are falsy in Python. -/
def resolveUrl (resolver : Str → Option Str) (named raw : Str) : Str :=
  if named ≠ [] then
    match resolver named with
    | some u => u
    | none => hashMark
  else if raw ≠ [] then raw
  else hashMark

/-- One row of the bulk fetch
`MenuItem.objects.filter(menu__name=menu_name).values("id", "parent_id",
"title", "url", "named_url", "sort_order")`. -/
structure RawItem where
  id : Int
  parent_id : Option Int
  title : Str
  url : Str
  named_url : Str
  sort_order : Int
deriving DecidableEq

/-- A row after the per-item processing loop of `draw_menu` (lines 77-79)
added `resolved_url` and `norm_url`. -/
structure Item extends RawItem where
  resolved_url : Str
  norm_url : Str
deriving DecidableEq

/-- Python truthiness of the `parent_id` / `active_id` values: `None` and `0`
are falsy, any other integer is truthy. -/
def truthyOpt : Option Int → Bool
  | none => false
  | some n => n != 0

/-- Processing of one fetched row (lines 77-79 of `draw_menu`). -/
def processItem (resolver : Str → Option Str) (it : RawItem) : Item :=
  let r := resolveUrl resolver it.named_url it.url
  { toRawItem := it, resolved_url := r, norm_url := normalizePath r }

/-- Processing of all fetched rows, in fetch order. -/
def processItems (resolver : Str → Option Str) (items : List RawItem) : List Item :=
  items.map (processItem resolver)

/-- Embedding of the dict `by_id = {it["id"]: it for it in items}` (line 81):
on duplicate ids the later row overwrites the earlier one. -/
def byId (items : List Item) (k : Int) : Option Item :=
  items.reverse.find? (fun it => it.id == k)

/-- The items appended to `roots` by the partition loop (lines 83-87), in
iteration order: those whose `parent_id` is falsy. -/
def rootItems (items : List Item) : List Item :=
  items.filter (fun it => !truthyOpt it.parent_id)

/-- The id list `roots` built by the partition loop (lines 83-87). -/
def rootIds (items : List Item) : List Int :=
  (rootItems items).map (fun it => it.id)

/-- The items appended to `children[p]` by the partition loop (lines 83-87), in
iteration order: those whose `parent_id` is truthy and equals `p`. -/
def childItems (items : List Item) (p : Int) : List Item :=
  items.filter (fun it => truthyOpt it.parent_id && it.parent_id == some p)

/-- The id list `children[p]` built by the partition loop (lines 83-87). -/
def childIds (items : List Item) (p : Int) : List Int :=
  (childItems items p).map (fun it => it.id)

/-- The `(sort key, id)` ascending order of the fetch
(`order_by("sort_order", "id")`, matching `MenuItem.Meta.ordering`). -/
abbrev rawKeyLe (a b : RawItem) : Prop :=
  a.sort_order < b.sort_order ∨ (a.sort_order = b.sort_order ∧ a.id ≤ b.id)

/-- The `(sort key, id)` ascending order on processed items. -/
abbrev keyLe (a b : Item) : Prop :=
  a.sort_order < b.sort_order ∨ (a.sort_order = b.sort_order ∧ a.id ≤ b.id)

/-- The entry store: the `Menu` table (list of menu names) and the `MenuItem`
table (each row tagged with the name of the menu it belongs to, the value the
`menu__name` join of the fetch compares against). -/
structure Store where
  menus : List Str
  rows : List (Str × RawItem)

/-- Embedding of the single bulk read (lines 68-72): all rows of the named
menu, ordered by `(sort_order, id)` ascending. -/
def fetchItems (store : Store) (name : Str) : List RawItem :=
  List.insertionSort rawKeyLe ((store.rows.filter (fun r => r.1 == name)).map (fun r => r.2))

/-- Embedding of the active-entry selection loop (lines 90-105) of `draw_menu`:
state `(active, maxLen)` mirrors the Python variables `active_id`, `max_len`. -/
def findActiveAux (cur : Str) : List Item → Option Int → Nat → Option Int
  | [], active, _ => active
  | it :: rest, active, maxLen =>
    if strStartsWith it.norm_url slash = false then
      findActiveAux cur rest active maxLen
    else if it.norm_url = slash ∧ cur ≠ slash then
      findActiveAux cur rest active maxLen
    else if strStartsWith cur it.norm_url then
      if it.norm_url.length > maxLen then
        findActiveAux cur rest (some it.id) it.norm_url.length
      else
        findActiveAux cur rest active maxLen
    else
      findActiveAux cur rest active maxLen

/-- The `active_id` computed by lines 90-105 of `draw_menu`. -/
def findActive (items : List Item) (cur : Str) : Option Int :=
  findActiveAux cur items none 0

/-- Embedding of the `while cur:` ancestor walk (lines 110-113) with explicit
fuel; `none` is a render failure (`KeyError` on a parent id outside `by_id`, or
fuel exhaustion, which with fuel > number of ids implies a repeated id and
hence Python-level divergence). -/
def expandedWalk (items : List Item) : Nat → Option Int → Finset Int → Option (Finset Int)
  | _, none, acc => some acc
  | 0, some c, acc => if c = 0 then some acc else none
  | fuel + 1, some c, acc =>
    if c = 0 then some acc
    else
      match byId items c with
      | none => none
      | some it => expandedWalk items fuel it.parent_id (insert c acc)

/-- The `expanded` set computed by lines 108-113 of `draw_menu` (`some` when
the Python loop terminates without error). -/
def expandedSet (items : List Item) (active : Option Int) : Option (Finset Int) :=
  if truthyOpt active then expandedWalk items (items.length + 1) active ∅
  else some ∅

/-- The view model handed to the template (lines 116-124). -/
structure ViewModel where
  menu_name : Str
  items : List Item
  root_ids : List Int
  children_of : Int → List Int
  active_id : Option Int
  expanded_ids : Finset Int

/-- Result of `draw_menu`: the empty string (menu unknown or empty) or a
rendered view model. -/
inductive MenuResult where
  | empty : MenuResult
  | rendered : ViewModel → MenuResult

/-- Embedding of `draw_menu` (lines 47-126).  `request_path` is
`getattr(request, "path", "/")`: `none` when the context has no request.
The result is `none` exactly when the Python code fails (see `expandedWalk`). -/
def drawMenu (resolver : Str → Option Str) (store : Store) (menu_name : Str)
    (request_path : Option Str) : Option MenuResult :=
  let current_path := normalizePath (request_path.getD slash)
  let items := fetchItems store menu_name
  if items = [] then some MenuResult.empty
  else
    let pitems := processItems resolver items
    let active := findActive pitems current_path
    match expandedSet pitems active with
    | none => none
    | some exp =>
      some (MenuResult.rendered
        { menu_name := menu_name, items := pitems, root_ids := rootIds pitems,
          children_of := childIds pitems, active_id := active,
          expanded_ids := exp })

/-- The bulk read instrumented with a read counter: every store access goes
through this function and increments the count. -/
def readEntries (store : Store) (name : Str) (reads : Nat) : List RawItem × Nat :=
  (fetchItems store name, reads + 1)

/-- `draw_menu` with its store accesses counted: the single bulk read at
lines 68-72 is the only access, everything after it works on `items`. -/
def drawMenuCounted (resolver : Str → Option Str) (store : Store) (menu_name : Str)
    (request_path : Option Str) : Option MenuResult × Nat :=
  let current_path := normalizePath (request_path.getD slash)
  let fetched := readEntries store menu_name 0
  let items := fetched.1
  let reads := fetched.2
  if items = [] then (some MenuResult.empty, reads)
  else
    let pitems := processItems resolver items
    let active := findActive pitems current_path
    match expandedSet pitems active with
    | none => (none, reads)
    | some exp =>
      (some (MenuResult.rendered
        { menu_name := menu_name, items := pitems, root_ids := rootIds pitems,
          children_of := childIds pitems, active_id := active,
          expanded_ids := exp }), reads)

/-- Spec wording of participation in active-entry selection: the normalized
URL is an absolute path (not external/fragment), the bare root "/" matches
only when the current path is exactly "/", and the normalized URL is a
prefix of the normalized current path. -/
def specMatches (cur : Str) (it : Item) : Bool :=
  strStartsWith it.norm_url slash &&
    (!(it.norm_url == slash) || cur == slash) &&
    strStartsWith cur it.norm_url

/-- Spec wording of active-entry selection: the first entry in list order
that matches and whose normalized URL is a longest matching prefix (no other
matching entry has a strictly longer normalized URL). -/
def specBestMatch (items : List Item) (cur : Str) : Option Item :=
  items.find? (fun it => specMatches cur it &&
    items.all (fun j => !specMatches cur j ||
      decide (j.norm_url.length ≤ it.norm_url.length)))

/-- Spec wording of the ancestor chain: the ids visited by walking the parent
chain from `cur` (the active id wrapped in `some`), stopping at a falsy
parent reference, each step reading the entry out of the id lookup. -/
inductive Visits (items : List Item) : Option Int → Int → Prop
  | here (c : Int) : c ≠ 0 → Visits items (some c) c
  | there (c : Int) (it : Item) (x : Int) : c ≠ 0 → byId items c = some it →
      Visits items it.parent_id x → Visits items (some c) x

/-! ### String helper lemmas -/

lemma startsWith_slash_cons (t : Str) : strStartsWith ('/' :: t) slash = true := by
  simp [strStartsWith, slash, List.isPrefixOf]

lemma startsWith_slash_exists {s : Str} (h : strStartsWith s slash = true) :
    ∃ t, s = '/' :: t := by
  cases s with
  | nil => simp [strStartsWith, slash, List.isPrefixOf] at h
  | cons c t =>
    simp [strStartsWith, slash, List.isPrefixOf] at h
    exact ⟨t, by rw [h]⟩

lemma isPrefixOf_append {l s : Str} (t : Str) (h : l.isPrefixOf s = true) :
    l.isPrefixOf (s ++ t) = true := by
  simp at h ⊢
  exact h.trans (List.prefix_append s t)

lemma endsWith_append_slash (q : Str) : strEndsWith (q ++ slash) slash = true := by
  simp [strEndsWith, slash, List.isSuffixOf, List.reverse_append, List.isPrefixOf]

lemma not_external_slash (t : Str) : isExternalOrFragment ('/' :: t) = false := by
  have h1 : (('h' : Char) == '/') = false := by decide
  have h2 : (('#' : Char) == '/') = false := by decide
  simp [isExternalOrFragment, strStartsWith, httpScheme, httpsScheme, hashMark,
    List.isPrefixOf, h1, h2]

lemma length_pos_of_startsWith_slash {s : Str} (h : strStartsWith s slash = true) :
    0 < s.length := by
  obtain ⟨t, rfl⟩ := startsWith_slash_exists h
  simp

/-- Shape of `normalizePath` on a nonempty, non-external, non-fragment input:
the result is an absolute path ending in "/" unless it is the bare root. -/
lemma normalizePath_abs (p : Str) (hne : p ≠ []) (hext : isExternalOrFragment p = false) :
    strStartsWith (normalizePath p) slash = true ∧
      (normalizePath p = slash ∨ strEndsWith (normalizePath p) slash = true) := by
  unfold normalizePath
  rw [if_neg hne, if_neg (by simp [hext])]
  have hqs : strStartsWith (if strStartsWith p slash then p else slash ++ p) slash = true := by
    split
    · assumption
    · exact startsWith_slash_cons p
  by_cases hcond :
      (if strStartsWith p slash then p else slash ++ p) ≠ slash ∧
        strEndsWith (if strStartsWith p slash then p else slash ++ p) slash = false
  · rw [if_pos hcond]
    exact ⟨isPrefixOf_append slash hqs, Or.inr (endsWith_append_slash _)⟩
  · rw [if_neg hcond]
    refine ⟨hqs, ?_⟩
    by_cases h1 : (if strStartsWith p slash then p else slash ++ p) = slash
    · exact Or.inl h1
    · push_neg at hcond
      have h2 := hcond h1
      cases hE : strEndsWith (if strStartsWith p slash then p else slash ++ p) slash with
      | false => exact absurd hE h2
      | true => exact Or.inr rfl

/-- External links and fragments are returned unchanged by `normalizePath`. -/
lemma normalizePath_external (p : Str) (h : isExternalOrFragment p = true) :
    normalizePath p = p := by
  have hne : p ≠ [] := by
    intro he
    subst he
    simp [isExternalOrFragment, strStartsWith, httpScheme, httpsScheme, hashMark,
      List.isPrefixOf] at h
  unfold normalizePath
  rw [if_neg hne, if_pos h]

/-! ### Claim C5: shape of path normalization -/

/-- C5: for every input string, `_normalize_path` maps the empty string to
"/", returns strings starting with "http://", "https://" or "#" unchanged,
and otherwise returns a string starting with "/" and ending with "/" except
when it is the bare root "/"; moreover the five concrete examples of the
spec hold. -/
theorem normalize_path_canonical (p : Str) :
    (p = [] → normalizePath p = slash) ∧
    (isExternalOrFragment p = true → normalizePath p = p) ∧
    (p ≠ [] → isExternalOrFragment p = false →
      strStartsWith (normalizePath p) slash = true ∧
        (normalizePath p = slash ∨ strEndsWith (normalizePath p) slash = true)) ∧
    normalizePath [] = slash ∧
    normalizePath ['/', 'a'] = ['/', 'a', '/'] ∧
    normalizePath ['/', 'a', '/'] = ['/', 'a', '/'] ∧
    normalizePath ['#', 'x'] = ['#', 'x'] ∧
    normalizePath ['h', 't', 't', 'p', ':', '/', '/', 'h'] =
      ['h', 't', 't', 'p', ':', '/', '/', 'h'] := by
  refine ⟨?_, normalizePath_external p, normalizePath_abs p, by decide, by decide,
    by decide, by decide, by decide⟩
  intro h
  subst h
  decide

/-- Witness for C5 at the concrete input "a". -/
theorem normalize_path_canonical_witness :
    strStartsWith (normalizePath ['a']) slash = true ∧
      (normalizePath ['a'] = slash ∨ strEndsWith (normalizePath ['a']) slash = true) :=
  (normalize_path_canonical ['a']).2.2.1 (by decide) (by decide)

/-! ### Claim C6: idempotence of path normalization -/

/-- C6: path normalization is idempotent: normalizing an already-normalized
string changes nothing. -/
theorem normalize_path_idempotent (p : Str) :
    normalizePath (normalizePath p) = normalizePath p := by
  by_cases hne : p = []
  · subst hne; decide
  by_cases hext : isExternalOrFragment p = true
  · rw [normalizePath_external p hext, normalizePath_external p hext]
  · have hext' : isExternalOrFragment p = false := by
      cases h : isExternalOrFragment p with
      | false => rfl
      | true => exact absurd h hext
    obtain ⟨hstart, hor⟩ := normalizePath_abs p hne hext'
    set r := normalizePath p with hr
    obtain ⟨t, ht⟩ := startsWith_slash_exists hstart
    have hrne : r ≠ [] := by rw [ht]; simp
    have hrext : isExternalOrFragment r = false := by rw [ht]; exact not_external_slash t
    unfold normalizePath
    rw [if_neg hrne, if_neg (by simp [hrext])]
    simp only [hstart, if_true]
    rcases hor with h1 | h2
    · rw [if_neg (by simp [h1])]
    · rw [if_neg (by simp [h2])]

/-! ### Claim C7: URL resolution and its fallbacks -/

/-- C7: `_resolve_url` returns the resolver's concrete path when a named
route is present and resolves, the sentinel "#" when it does not resolve,
the raw URL when only the raw URL is populated, and "#" when neither field
is populated; resolution is applied independently per entry, so an
unresolvable route affects only that entry. -/
theorem resolve_url_cases (resolver : Str → Option Str) (named raw : Str) :
    (∀ u, named ≠ [] → resolver named = some u → resolveUrl resolver named raw = u) ∧
    (named ≠ [] → resolver named = none → resolveUrl resolver named raw = hashMark) ∧
    (named = [] → raw ≠ [] → resolveUrl resolver named raw = raw) ∧
    (named = [] → raw = [] → resolveUrl resolver named raw = hashMark) ∧
    (∀ (its : List RawItem) (i : Nat) (h : i < its.length),
      (processItems resolver its).get ⟨i, by simpa [processItems] using h⟩ =
        processItem resolver (its.get ⟨i, h⟩)) := by
  refine ⟨?_, ?_, ?_, ?_, ?_⟩
  · intro u hne hres; simp [resolveUrl, hne, hres]
  · intro hne hres; simp [resolveUrl, hne, hres]
  · intro he hne; simp [resolveUrl, he, hne]
  · intro he hre; simp [resolveUrl, he, hre]
  · intro its i h; simp [processItems]

/-- Witness for C7: a resolver that knows no route names falls back to "#"
for an entry with a named route, and the raw URL is used when only it is
populated. -/
theorem resolve_url_cases_witness :
    resolveUrl (fun _ => none) ['x'] ['/', 'a'] = hashMark ∧
      resolveUrl (fun _ => none) [] ['/', 'a'] = ['/', 'a'] :=
  ⟨(resolve_url_cases (fun _ => none) ['x'] ['/', 'a']).2.1 (by decide) rfl,
   (resolve_url_cases (fun _ => none) [] ['/', 'a']).2.2.1 rfl (by decide)⟩

/-! ### Claim C4: exactly one bulk read -/

/-- C4: `draw_menu` instrumented with a store-access counter performs exactly
one read for every input, and the counted run computes the same result as the
uncounted one: everything after the bulk fetch works only on the fetched rows. -/
theorem draw_menu_single_read (resolver : Str → Option Str) (store : Store)
    (menu_name : Str) (request_path : Option Str) :
    drawMenuCounted resolver store menu_name request_path =
      (drawMenu resolver store menu_name request_path, 1) := by
  unfold drawMenuCounted drawMenu readEntries
  dsimp only
  split
  · rfl
  · split <;> rfl

/-! ### Claim C8: unknown menu identifier yields an empty result -/

/-- C8: when the menu identifier names no stored menu (so, the store being
well formed, no entry row is tagged with it), `draw_menu` returns the empty
result and no failure. -/
theorem unknown_menu_empty (resolver : Str → Option Str) (store : Store)
    (name : Str) (p : Option Str)
    (hwf : ∀ r ∈ store.rows, r.1 ∈ store.menus) (hunk : name ∉ store.menus) :
    drawMenu resolver store name p = some MenuResult.empty := by
  have hfil : store.rows.filter (fun r => r.1 == name) = [] := by
    rw [List.filter_eq_nil_iff]
    intro r hr hbeq
    rw [beq_iff_eq] at hbeq
    exact hunk (hbeq ▸ hwf r hr)
  have hfetch : fetchItems store name = [] := by
    unfold fetchItems
    rw [hfil]
    rfl
  unfold drawMenu
  rw [hfetch]
  rfl

/-- Witness for C8: a store holding one menu and one entry row, queried with
a different menu name. -/
theorem unknown_menu_empty_witness :
    drawMenu (fun _ => none)
      { menus := [['m']],
        rows := [(['m'],
          { id := 1, parent_id := none, title := ['A'], url := ['/', 'a'],
            named_url := [], sort_order := 0 })] }
      ['z'] (some ['/', 'a', '/']) = some MenuResult.empty :=
  unknown_menu_empty (fun _ => none) _ ['z'] (some ['/', 'a', '/'])
    (by intro r hr; simp at hr; simp [hr]) (by decide)

/-! ### Claim C10: empty menus and unknown menus are indistinguishable -/

/-- C10: whenever the bulk fetch returns no rows — whether the identifier is
unknown or the menu exists with zero entries — `draw_menu` returns the same
empty result, and the result never depends on the menu table at all, so the
public interface cannot distinguish the two situations. -/
theorem empty_fetch_indistinguishable (resolver : Str → Option Str) (store : Store)
    (name : Str) (p : Option Str) (h : fetchItems store name = []) :
    drawMenu resolver store name p = some MenuResult.empty ∧
      ∀ menus2 : List Str,
        drawMenu resolver { menus := menus2, rows := store.rows } name p =
          drawMenu resolver store name p := by
  constructor
  · unfold drawMenu
    rw [h]
    rfl
  · intro menus2
    rfl

/-- Witness for C10: a store whose menu table contains the queried name but
whose entry table has no row for it. -/
theorem empty_fetch_indistinguishable_witness :
    drawMenu (fun _ => none) { menus := [['m']], rows := [] } ['m'] none =
      some MenuResult.empty :=
  (empty_fetch_indistinguishable (fun _ => none) { menus := [['m']], rows := [] }
    ['m'] none rfl).1

/-! ### Claim C9: sibling order preservation -/

/-- C9: when the entry list is delivered in ascending `(sort key, id)` order,
the root list and every parent's children list preserve it: each is the
id-image of a sublist of the delivered list (so the order is stable) and that
sublist is itself ascending in `(sort key, id)`. -/
theorem sibling_order_preserved (items : List Item) (h : items.Pairwise keyLe) :
    rootIds items = (rootItems items).map (fun it => it.id) ∧
    (rootItems items).Sublist items ∧
    (rootItems items).Pairwise keyLe ∧
    ∀ p : Int,
      childIds items p = (childItems items p).map (fun it => it.id) ∧
      (childItems items p).Sublist items ∧
      (childItems items p).Pairwise keyLe := by
  refine ⟨rfl, List.filter_sublist items, List.Pairwise.sublist (List.filter_sublist items) h, ?_⟩
  intro p
  exact ⟨rfl, List.filter_sublist items, List.Pairwise.sublist (List.filter_sublist items) h⟩

/-- Concrete three-entry menu for the C9 witness: a root and its two children,
delivered in ascending `(sort key, id)` order. -/
def c9items : List Item :=
  processItems (fun _ => none)
    [{ id := 1, parent_id := none, title := ['B'], url := ['/', 'b', '/'],
       named_url := [], sort_order := 0 },
     { id := 2, parent_id := some 1, title := ['C'], url := ['/', 'b', '/', 'c', '/'],
       named_url := [], sort_order := 1 },
     { id := 3, parent_id := some 1, title := ['D'], url := ['/', 'b', '/', 'd', '/'],
       named_url := [], sort_order := 1 }]

/-- Witness for C9 at a concrete sorted entry list. -/
theorem sibling_order_preserved_witness :
    List.Pairwise keyLe c9items ∧ (childItems c9items 1).Sublist c9items :=
  ⟨by decide, ((sibling_order_preserved c9items (by decide)).2.2.2 1).2.1⟩

/-! ### Claim C2: the expanded set is the active entry plus its ancestors -/

lemma visits_none (items : List Item) (x : Int) : ¬ Visits items none x := by
  intro h
  cases h

lemma visits_zero (items : List Item) (x : Int) : ¬ Visits items (some 0) x := by
  intro h
  cases h with
  | here _ h0 => exact h0 rfl
  | there _ _ _ h0 _ _ => exact h0 rfl

/-- The active id returned by the selection loop is the id of some fetched
entry (or the loop keeps its incoming accumulator). -/
lemma findActiveAux_mem (cur : Str) :
    ∀ (l : List Item) (active : Option Int) (m : Nat) (a : Int),
      findActiveAux cur l active m = some a →
      active = some a ∨ ∃ it ∈ l, it.id = a := by
  intro l
  induction l with
  | nil =>
    intro active m a h
    exact Or.inl h
  | cons it rest ih =>
    intro active m a h
    simp only [findActiveAux] at h
    repeat' split at h
    all_goals {
      rcases ih _ _ _ h with h' | ⟨j, hj, hja⟩
      · first
          | exact Or.inl h'
          | { injection h' with h2
              exact Or.inr ⟨it, List.mem_cons_self it rest, h2⟩ }
      · exact Or.inr ⟨j, List.mem_cons_of_mem _ hj, hja⟩
    }

/-- Invariant of the fueled ancestor walk: on success, the returned set is the
incoming accumulator plus every id the spec-side chain relation visits. -/
lemma expandedWalk_spec (items : List Item) :
    ∀ (fuel : Nat) (cur : Option Int) (acc : Finset Int) (S : Finset Int),
      expandedWalk items fuel cur acc = some S →
      ∀ x : Int, x ∈ S ↔ x ∈ acc ∨ Visits items cur x := by
  intro fuel
  induction fuel with
  | zero =>
    intro cur acc S h x
    cases cur with
    | none =>
      simp only [expandedWalk] at h
      injection h with h
      subst h
      exact ⟨Or.inl, fun h2 => h2.resolve_right (visits_none items x)⟩
    | some c =>
      simp only [expandedWalk] at h
      split at h
      · injection h with h
        subst h
        subst ‹c = 0›
        exact ⟨Or.inl, fun h2 => h2.resolve_right (visits_zero items x)⟩
      · exact absurd h (by simp)
  | succ fuel ih =>
    intro cur acc S h x
    cases cur with
    | none =>
      simp only [expandedWalk] at h
      injection h with h
      subst h
      exact ⟨Or.inl, fun h2 => h2.resolve_right (visits_none items x)⟩
    | some c =>
      simp only [expandedWalk] at h
      split at h
      · injection h with h
        subst h
        subst ‹c = 0›
        exact ⟨Or.inl, fun h2 => h2.resolve_right (visits_zero items x)⟩
      · rename_i hc0
        cases hb : byId items c with
        | none =>
          rw [hb] at h
          exact absurd h (by simp)
        | some it =>
          rw [hb] at h
          have hiter := ih it.parent_id (insert c acc) S h x
          rw [hiter, Finset.mem_insert]
          constructor
          · rintro ((rfl | hacc) | hv)
            · exact Or.inr (Visits.here x hc0)
            · exact Or.inl hacc
            · exact Or.inr (Visits.there c it x hc0 hb hv)
          · rintro (hacc | hv)
            · exact Or.inl (Or.inr hacc)
            · cases hv with
              | here _ _ => exact Or.inl (Or.inl rfl)
              | there _ it2 _ _ hb2 hv2 =>
                rw [hb] at hb2
                injection hb2 with hb2
                subst hb2
                exact Or.inr hv2

/-- C2: whenever the expansion computation of `draw_menu` completes (the
Python walk neither raises nor diverges), the expanded-id set is exactly the
active id together with every ancestor reached by walking the parent chain
from the active entry, and it is empty when there is no active id.  Database
ids are positive, hence the `≠ 0` hypothesis. -/
theorem expanded_is_active_ancestors (items : List Item) (cur : Str) (S : Finset Int)
    (hpos : ∀ it ∈ items, it.id ≠ 0)
    (hS : expandedSet items (findActive items cur) = some S) :
    (findActive items cur = none → S = ∅) ∧
    (∀ a : Int, findActive items cur = some a →
      ∀ x : Int, x ∈ S ↔ Visits items (some a) x) := by
  constructor
  · intro hnone
    rw [hnone] at hS
    simp [expandedSet, truthyOpt] at hS
    exact hS.symm
  · intro a ha x
    rw [ha] at hS
    have hane : a ≠ 0 := by
      rcases findActiveAux_mem cur items none 0 a ha with h' | ⟨it, hmem, hid⟩
      · exact absurd h' (by simp)
      · exact hid ▸ hpos it hmem
    unfold expandedSet at hS
    rw [if_pos (by simp [truthyOpt, hane])] at hS
    have hmain := expandedWalk_spec items (items.length + 1) (some a) ∅ S hS x
    simpa using hmain

/-- Concrete two-entry chain for the C2 witness: entry 2 is the child of
entry 1 and is active for the request path "/a/b/". -/
def c2items : List Item :=
  processItems (fun _ => none)
    [{ id := 1, parent_id := none, title := ['A'], url := ['/', 'a', '/'],
       named_url := [], sort_order := 0 },
     { id := 2, parent_id := some 1, title := ['B'],
       url := ['/', 'a', '/', 'b', '/'], named_url := [], sort_order := 1 }]

/-- Witness for C2 at the concrete chain: the walk succeeds with set {1, 2}
and the active id 2 is in it. -/
theorem expanded_is_active_ancestors_witness :
    (∀ it ∈ c2items, it.id ≠ 0) ∧
      expandedSet c2items (findActive c2items ['/', 'a', '/', 'b', '/']) =
        some ({1, 2} : Finset Int) ∧
      (2 ∈ ({1, 2} : Finset Int) ↔ Visits c2items (some 2) 2) :=
  ⟨by decide, by decide,
   (expanded_is_active_ancestors c2items ['/', 'a', '/', 'b', '/'] {1, 2}
      (by decide) (by decide)).2 2 (by decide) 2⟩

/-! ### Claim C3: the render is not failure-free -/

/-- Store exhibiting the C3 failure: two entries of the same menu whose
parent references form a 2-cycle (1 → 2 → 1).  The write-time validation of
`MenuItem.clean` only rejects a parent from a different menu, so this
configuration is reachable through the admin interface. -/
def c3cycleStore : Store :=
  { menus := [['m']],
    rows := [(['m'],
      { id := 1, parent_id := some 2, title := ['A'], url := ['/', 'a', '/'],
        named_url := [], sort_order := 0 }),
      (['m'],
      { id := 2, parent_id := some 1, title := ['B'], url := ['/', 'b', '/'],
        named_url := [], sort_order := 1 })] }

/-- C3 fails on the code: with the parent 2-cycle above and request path
"/a/" (which makes entry 1 active), the expansion walk of `draw_menu` never
terminates — the embedding returns its failure marker `none`, which stands
for the Python `while cur:` loop revisiting id 1 forever. -/
theorem draw_menu_cycle_fails :
    drawMenu (fun _ => none) c3cycleStore ['m'] (some ['/', 'a', '/']) = none := by
  rfl

/-! ### Claim C1: longest-prefix active-entry selection -/

lemma find?_congr_mem {α : Type} (l : List α) (p q : α → Bool)
    (h : ∀ x ∈ l, p x = q x) : l.find? p = l.find? q := by
  induction l with
  | nil => rfl
  | cons a t ih =>
    have ha := h a (List.mem_cons_self a t)
    cases hp : p a with
    | true =>
      rw [List.find?_cons_of_pos _ hp, List.find?_cons_of_pos _ (ha ▸ hp)]
    | false =>
      rw [List.find?_cons_of_neg _ (by simp [hp]),
        List.find?_cons_of_neg _ (by simp [← ha, hp])]
      exact ih (fun x hx => h x (List.mem_cons_of_mem a hx))

/-- Among the matching entries of a nonempty-match list there is one of
maximal normalized-URL length. -/
lemma exists_max_match (cur : Str) (l : List Item) :
    ∀ j ∈ l, specMatches cur j = true →
      ∃ k, k ∈ l ∧ specMatches cur k = true ∧
        ∀ x ∈ l, specMatches cur x = true →
          x.norm_url.length ≤ k.norm_url.length := by
  induction l with
  | nil =>
    intro j hj _
    exact absurd hj (List.not_mem_nil j)
  | cons a t ih =>
    intro j hj hjM
    by_cases hful : ∃ j2 ∈ t, specMatches cur j2 = true
    · obtain ⟨j2, hj2, hj2M⟩ := hful
      obtain ⟨k, hk, hkM, hkMax⟩ := ih j2 hj2 hj2M
      by_cases hcase : specMatches cur a = true ∧ k.norm_url.length < a.norm_url.length
      · refine ⟨a, List.mem_cons_self a t, hcase.1, ?_⟩
        intro x hx hxM
        rcases List.mem_cons.mp hx with rfl | hx2
        · exact le_refl _
        · exact le_trans (hkMax x hx2 hxM) (le_of_lt hcase.2)
      · refine ⟨k, List.mem_cons_of_mem a hk, hkM, ?_⟩
        intro x hx hxM
        rcases List.mem_cons.mp hx with rfl | hx2
        · cases not_and_or.mp hcase with
          | inl h2 => exact absurd hxM h2
          | inr h2 => exact Nat.le_of_not_lt h2
        · exact hkMax x hx2 hxM
    · have hja : j = a := by
        rcases List.mem_cons.mp hj with rfl | hj2
        · rfl
        · exact absurd ⟨j, hj2, hjM⟩ hful
      subst hja
      refine ⟨j, List.mem_cons_self j t, hjM, ?_⟩
      intro x hx hxM
      rcases List.mem_cons.mp hx with rfl | hx2
      · exact le_refl _
      · exact absurd ⟨x, hx2, hxM⟩ hful

/-- One step of the selection loop: the entry is taken exactly when it passes
all three guards and strictly beats the running maximum length. -/
lemma findActiveAux_cons (cur : Str) (it : Item) (rest : List Item)
    (active : Option Int) (m : Nat) :
    findActiveAux cur (it :: rest) active m =
      if specMatches cur it && decide (m < it.norm_url.length) then
        findActiveAux cur rest (some it.id) it.norm_url.length
      else findActiveAux cur rest active m := by
  simp only [findActiveAux]
  split_ifs <;>
    first
      | rfl
      | (simp_all [specMatches, beq_iff_eq, not_and_or]; try omega)

/-- The selection loop returns the first entry that matches, strictly beats
the incoming running maximum, and is not beaten by any later entry; when no
entry qualifies, it returns the incoming accumulator. -/
lemma findActiveAux_eq (cur : Str) :
    ∀ (l : List Item) (active : Option Int) (m : Nat),
      findActiveAux cur l active m =
        match l.find? (fun it => specMatches cur it &&
            decide (m < it.norm_url.length) &&
            l.all (fun j => !specMatches cur j ||
              decide (j.norm_url.length ≤ it.norm_url.length))) with
        | some it => some it.id
        | none => active := by
  intro l
  induction l with
  | nil =>
    intro active m
    rfl
  | cons it rest ih =>
    intro active m
    rw [findActiveAux_cons]
    cases hM : specMatches cur it with
    | false =>
      rw [if_neg (by simp [hM])]
      rw [ih]
      rw [List.find?_cons_of_neg _ (by simp [hM])]
      have hfind := find?_congr_mem rest
        (fun x => specMatches cur x && decide (m < x.norm_url.length) &&
          (it :: rest).all (fun j => !specMatches cur j ||
            decide (j.norm_url.length ≤ x.norm_url.length)))
        (fun x => specMatches cur x && decide (m < x.norm_url.length) &&
          rest.all (fun j => !specMatches cur j ||
            decide (j.norm_url.length ≤ x.norm_url.length)))
        (fun x _ => by simp [List.all_cons, hM])
      rw [hfind]
    | true =>
      by_cases hLen : m < it.norm_url.length
      · rw [if_pos (by simp [hM, hLen])]
        rw [ih]
        cases hAll : rest.all (fun j => !specMatches cur j ||
            decide (j.norm_url.length ≤ it.norm_url.length)) with
        | true =>
          rw [List.find?_cons_of_pos _
            (by simp [hM, hLen, List.all_cons, hAll])]
          have hnone : rest.find? (fun x => specMatches cur x &&
              decide (it.norm_url.length < x.norm_url.length) &&
              rest.all (fun j => !specMatches cur j ||
                decide (j.norm_url.length ≤ x.norm_url.length))) = none := by
            rw [List.find?_eq_none]
            intro x hx hPx
            simp only [Bool.and_eq_true, decide_eq_true_eq] at hPx
            have hq := List.all_eq_true.mp hAll x hx
            simp only [hPx.1.1, Bool.not_true, Bool.false_or,
              decide_eq_true_eq] at hq
            omega
          rw [hnone]
        | false =>
          obtain ⟨j, hj, hjb⟩ := List.all_eq_false.mp hAll
          have hjM : specMatches cur j = true := by
            cases hq : specMatches cur j
            · simp [hq] at hjb
            · rfl
          have hjL : it.norm_url.length < j.norm_url.length := by
            simp only [hjM, Bool.not_true, Bool.false_or] at hjb
            simpa using hjb
          rw [List.find?_cons_of_neg _ (by simp [List.all_cons, hAll])]
          have hfind := find?_congr_mem rest
            (fun x => specMatches cur x && decide (m < x.norm_url.length) &&
              (it :: rest).all (fun j2 => !specMatches cur j2 ||
                decide (j2.norm_url.length ≤ x.norm_url.length)))
            (fun x => specMatches cur x &&
              decide (it.norm_url.length < x.norm_url.length) &&
              rest.all (fun j2 => !specMatches cur j2 ||
                decide (j2.norm_url.length ≤ x.norm_url.length)))
            (fun x hx => by
              cases hMx : specMatches cur x with
              | false => simp [hMx]
              | true =>
                cases hAx : rest.all (fun j2 => !specMatches cur j2 ||
                    decide (j2.norm_url.length ≤ x.norm_url.length)) with
                | false => simp [List.all_cons, hAx]
                | true =>
                  have hLjx : j.norm_url.length ≤ x.norm_url.length := by
                    have hq := List.all_eq_true.mp hAx j hj
                    simpa [hjM] using hq
                  have h1 : it.norm_url.length < x.norm_url.length :=
                    lt_of_lt_of_le hjL hLjx
                  have h2 : m < x.norm_url.length := lt_trans hLen h1
                  simp [List.all_cons, hMx, hAx, hM, h1, h2, le_of_lt h1])
          rw [hfind]
          obtain ⟨k, hk, hkM, hkMax⟩ := exists_max_match cur rest j hj hjM
          have hkQ : (specMatches cur k &&
              decide (it.norm_url.length < k.norm_url.length) &&
              rest.all (fun j2 => !specMatches cur j2 ||
                decide (j2.norm_url.length ≤ k.norm_url.length))) = true := by
            have h1 : it.norm_url.length < k.norm_url.length :=
              lt_of_lt_of_le hjL (hkMax j hj hjM)
            have h2 : rest.all (fun j2 => !specMatches cur j2 ||
                decide (j2.norm_url.length ≤ k.norm_url.length)) = true :=
              List.all_eq_true.mpr (fun x hx => by
                cases hMx : specMatches cur x with
                | false => simp [hMx]
                | true => simp [hMx, hkMax x hx hMx])
            simp [hkM, h1, h2]
          cases hfq : rest.find? (fun x => specMatches cur x &&
              decide (it.norm_url.length < x.norm_url.length) &&
              rest.all (fun j2 => !specMatches cur j2 ||
                decide (j2.norm_url.length ≤ x.norm_url.length))) with
          | none =>
            exact absurd hkQ (List.find?_eq_none.mp hfq k hk)
          | some k2 =>
            rfl
      · rw [if_neg (by simp [hLen])]
        rw [ih]
        rw [List.find?_cons_of_neg _ (by simp [hLen])]
        have hfind := find?_congr_mem rest
          (fun x => specMatches cur x && decide (m < x.norm_url.length) &&
            (it :: rest).all (fun j => !specMatches cur j ||
              decide (j.norm_url.length ≤ x.norm_url.length)))
          (fun x => specMatches cur x && decide (m < x.norm_url.length) &&
            rest.all (fun j => !specMatches cur j ||
              decide (j.norm_url.length ≤ x.norm_url.length)))
          (fun x _ => by
            by_cases hDx : m < x.norm_url.length
            · have hle : it.norm_url.length ≤ x.norm_url.length :=
                le_trans (Nat.le_of_not_lt hLen) (le_of_lt hDx)
              simp [List.all_cons, hM, hDx, hle]
            · simp [hDx])
        rw [hfind]

/-- C1: the active id selected by the loop of `draw_menu` is the id of the
first entry in list order (the fetch delivers `(sort key, id)` ascending
order) whose normalized URL is an absolute path, survives the bare-root
special case, is a prefix of the normalized current path, and is a longest
such prefix; entries with the identical normalized URL are won by the first
in order, and when no absolute-path entry matches there is no active id. -/
theorem active_id_longest_match (items : List Item) (cur : Str) :
    findActive items cur = (specBestMatch items cur).map (fun it => it.id) := by
  unfold findActive specBestMatch
  rw [findActiveAux_eq]
  have hfind := find?_congr_mem items
    (fun it => specMatches cur it && decide (0 < it.norm_url.length) &&
      items.all (fun j => !specMatches cur j ||
        decide (j.norm_url.length ≤ it.norm_url.length)))
    (fun it => specMatches cur it &&
      items.all (fun j => !specMatches cur j ||
        decide (j.norm_url.length ≤ it.norm_url.length)))
    (fun x _ => by
      cases hMx : specMatches cur x with
      | false => simp [hMx]
      | true =>
        have hA : strStartsWith x.norm_url slash = true := by
          have hm2 := hMx
          simp only [specMatches, Bool.and_eq_true] at hm2
          exact hm2.1.1
        simp [hMx, length_pos_of_startsWith_slash hA])
  rw [hfind]
  cases items.find? (fun it => specMatches cur it &&
      items.all (fun j => !specMatches cur j ||
        decide (j.norm_url.length ≤ it.norm_url.length))) with
  | none => rfl
  | some k => rfl

/-! ### The bulk fetch delivers ascending (sort key, id) order -/

instance : IsTotal RawItem rawKeyLe := ⟨fun a b => by omega⟩

instance : IsTrans RawItem rawKeyLe := ⟨fun a b c hab hbc => by omega⟩

/-- The rows returned by the bulk read are in ascending `(sort key, id)`
order, so list order in the lemmas above is fetch order. -/
lemma fetchItems_sorted (store : Store) (name : Str) :
    (fetchItems store name).Pairwise rawKeyLe :=
  List.sorted_insertionSort rawKeyLe _
